import Mathlib

/-!
Verification of the FIR/notch filtering engines in `mne/filter.py`.

The Python source is shallowly embedded: machine floats that carry exact
small integers or dyadic rationals are modelled by `ℚ`, complex spectrum
bins by pairs of rationals, numpy arrays by `List`s, numpy's in-place row
assignment by `List.set`, and fallible numpy calls by `Except`.  External
black boxes (scipy's `firwin2`, `freqz`, `resample`, `stats.f.ppf`, the
taper/spectrum primitives) are taken as function parameters.
-/

namespace MneFilter

/-! ### Nyquist-parity adjustment (`_filter`, lines 279-285 and 314-319)

Both branches of `_filter` use the same test:
`(gain[-1] == 0.0 and N % 2 == 1) or (gain[-1] == 1.0 and N % 2 != 1)`
and, when it holds, grow the length by one (`extend_x = True` adds one
sample in the direct branch; `N += 1` in the overlap-add branch). -/

def extend_x (gainNyq : ℚ) (n : ℕ) : Bool :=
  decide ((gainNyq = 0 ∧ n % 2 = 1) ∨ (gainNyq = 1 ∧ n % 2 ≠ 1))

/-- The kernel/extension length actually used by `_filter`, starting from the
natural length (direct-FFT branch: the signal length `Norig`) or the
requested length (overlap-add branch: `filter_length`). -/
def nyqAdjustedLength (gainNyq : ℚ) (n : ℕ) : ℕ :=
  n + (if extend_x gainNyq n then 1 else 0)

/-! ### Segment planner (`_overlap_add_filter`, lines 82-98) -/

/-- Floor of base-2 logarithm by repeated halving, with explicit fuel so
that the recursion is structural. -/
def log2Fuel : ℕ → ℕ → ℕ
  | 0, _ => 0
  | fuel + 1, n => if n < 2 then 0 else log2Fuel fuel (n / 2) + 1

/-- Ceiling of base-2 logarithm by repeated halving, with explicit fuel. -/
def clog2Fuel : ℕ → ℕ → ℕ
  | 0, _ => 0
  | fuel + 1, n => if n ≤ 1 then 0 else clog2Fuel fuel ((n + 1) / 2) + 1

/-- Exact value of `np.ceil(np.log2 n)` on an exactly represented positive integer. -/
def clog2 (n : ℕ) : ℕ := clog2Fuel n n

/-- Exact value of `np.floor(np.log2 n)` on an exactly represented positive integer. -/
def flog2 (n : ℕ) : ℕ := log2Fuel n n

/-- Cost `np.ceil(n_tot / (N - n_h + 1)) * N * (np.log2 N + 1)` for a
power-of-two `N ≥ n_h` (so that the float `log2` is the exact exponent and
the ceiling division is exact). -/
def olaCost (nTot nH N : ℕ) : ℕ :=
  ((nTot + (N - nH)) / (N - nH + 1)) * N * (flog2 N + 1)

/-- First index (in the list order) attaining the minimum of `f`, as
`np.argmin` returns. -/
def argminFirst {α : Type} [LinearOrder α] (f : ℕ → α) : List ℕ → Option ℕ
  | [] => none
  | a :: as =>
    match argminFirst f as with
    | none => some a
    | some b => if f a ≤ f b then some a else some b

/-- Candidates `np.arange(ceil(log2 n_h), floor(log2 n_tot))`: the HALF-OPEN range of
candidate exponents (numpy's `arange` excludes the stop value). -/
def candidateExps (nH nTot : ℕ) : List ℕ :=
  List.range' (clog2 nH) (flog2 nTot - clog2 nH)

/-- Extended signal length `n_x = x.shape[1] + 2 * n_edge - 2` with
`n_edge = min(n_h, x.shape[1])` (lines 83-85). -/
def nExt (nH xLen : ℕ) : ℕ := xLen + 2 * min nH xLen - 2

/-- Total work `n_tot = 2 * n_x if zero_phase else n_x` (line 90). -/
def nTotOf (zeroPhase : Bool) (nX : ℕ) : ℕ := if zeroPhase then 2 * nX else nX

/-- The automatic FFT-size choice of `_overlap_add_filter` (lines 82-98),
given the kernel length `n_h` and the raw channel length `x.shape[1]`.
`none` models the crash of `np.argmin` on an empty candidate array. -/
def planNfft (nH xLen : ℕ) (zeroPhase : Bool) : Option ℕ :=
  if nH < nExt nH xLen then
    (argminFirst (fun k => olaCost (nTotOf zeroPhase (nExt nH xLen)) nH (2 ^ k))
        (candidateExps nH (nTotOf zeroPhase (nExt nH xLen)))).map
      (fun k => 2 ^ k)
  else
    some (2 ^ clog2 (nExt nH xLen + nH - 1))

/-- The planner as the claim words it: the candidate exponents run over the
INCLUSIVE range `[ceil(log2 n_h), floor(log2 n_tot)]`, and the single-block
fallback triggers whenever `n_tot ≤ n_h` (rather than `n_x ≤ n_h`). -/
def planNfftSpec (nH xLen : ℕ) (zeroPhase : Bool) : Option ℕ :=
  if nH < nTotOf zeroPhase (nExt nH xLen) then
    (argminFirst (fun k => olaCost (nTotOf zeroPhase (nExt nH xLen)) nH (2 ^ k))
        (List.range' (clog2 nH)
          (flog2 (nTotOf zeroPhase (nExt nH xLen)) + 1 - clog2 nH))).map
      (fun k => 2 ^ k)
  else
    some (2 ^ clog2 (nExt nH xLen + nH - 1))

/-! ### FFT-size guard and kernel padding (`_overlap_add_filter`, lines 100-107) -/

/-- Model of `np.zeros(n)`: numpy refuses a negative length. -/
def npZeros (n : ℤ) : Except String (List ℚ) :=
  if n < 0 then Except.error "negative dimensions are not allowed"
  else Except.ok (List.replicate n.toNat 0)

/-- Lines 100-107 of `_overlap_add_filter` for an explicitly requested
`n_fft`: the `n_fft <= 0` guard, then the zero-padded kernel
`np.r_[h, np.zeros(n_fft - n_h)]` whose construction is the input of the
kernel FFT.  Everything here happens before any channel is read or
written. -/
def overlapAddPrep (hker : List ℚ) (nFft : ℤ) : Except String (List ℚ) :=
  if nFft ≤ 0 then Except.error "n_fft is too short, has to be at least len(h)"
  else (npZeros (nFft - hker.length)).map (fun zs => hker ++ zs)

/-- Serial per-channel loop `for p in picks: x[p] = f(x[p])`
(lines 128-131 of `_overlap_add_filter`, lines 301-303 of `_filter`). -/
def applyPicksSeq (x : List (List ℚ)) (picks : List ℕ) (f : List ℚ → List ℚ) :
    List (List ℚ) :=
  picks.foldl (fun acc p => acc.set p (f (acc.getD p []))) x

/-- Function `_overlap_add_filter` with a requested `n_fft`: preparation (guard and
kernel spectrum input) first, per-channel processing only afterwards.
`rowFilter` abstracts `_1d_overlap_filter` applied with the prepared padded
kernel. -/
def overlapAddFilterModel (x : List (List ℚ)) (hker : List ℚ) (nFft : ℤ)
    (picks : List ℕ) (rowFilter : List ℚ → List ℚ → List ℚ) :
    Except String (List (List ℚ)) :=
  match overlapAddPrep hker nFft with
  | Except.error e => Except.error e
  | Except.ok hpad => Except.ok (applyPicksSeq x picks (rowFilter hpad))

/-! ### spectrum_fit bin selection (`_mt_spectrum_remove`, lines 1102-1111) -/

/-- Insert into an ascending duplicate-free list, keeping it so. -/
def insertAsc (n : ℕ) : List ℕ → List ℕ
  | [] => [n]
  | m :: ms => if n < m then n :: m :: ms else if n = m then m :: ms else m :: insertAsc n ms

/-- Model of `np.unique`: sorted ascending with duplicates removed. -/
def npUnique (l : List ℕ) : List ℕ := l.foldr insertAsc []

/-- Value `np.argmin(np.abs(freqs - lf))`: first index of the nearest bin. -/
def argminAbs (freqs : List ℚ) (lf : ℚ) : ℕ :=
  match argminFirst (fun i => |freqs.getD i 0 - lf|) (List.range freqs.length) with
  | some i => i
  | none => 0

/-- Bins strictly inside some half-width band:
`np.logical_and(freqs > lf - nw, freqs < lf + nw)` joined by `np.any`. -/
def notchBandIndices (freqs lineFreqs hw : List ℚ) : List ℕ :=
  (List.range freqs.length).filter (fun i =>
    (List.zip lineFreqs hw).any (fun p =>
      decide (p.1 - p.2 < freqs.getD i 0 ∧ freqs.getD i 0 < p.1 + p.2)))

/-- The explicit-frequency branch of `_mt_spectrum_remove` (lines 1102-1111).
Line 1106 executes `notch_widths /= 2.0` ON THE CALLER'S ARRAY, so the
function returns both the selected bin indices and the mutated widths array
that any later call will receive. -/
def mtSelectExplicit (freqs lineFreqs widths : List ℚ) : List ℕ × List ℚ :=
  let hw := widths.map (fun w => w / 2)
  let i1 := npUnique (lineFreqs.map (fun lf => argminAbs freqs lf))
  let i2 := notchBandIndices freqs lineFreqs hw
  (npUnique (i1 ++ i2), hw)

/-- The removed frequencies `rm_freqs = freqs[indices]`, part of the value
returned by `_mt_spectrum_remove` for every channel. -/
def mtRmFreqs (freqs lineFreqs widths : List ℚ) : List ℚ :=
  (mtSelectExplicit freqs lineFreqs widths).1.map (fun i => freqs.getD i 0)

/-! ### Auto-detection F-test (`_mt_spectrum_remove`, lines 1083-1101) -/

/-- The Bonferroni-corrected significance level the code passes to
`stats.f.ppf` (line 1097): `1 - p_value / n_times`, where `n_times = x.size`
is the number of TIME samples of the channel. -/
def bonferroniLevel (p : ℚ) (nTimes : ℕ) : ℚ := 1 - p / nTimes

/-- Threshold `stats.f.ppf(1 - p_value / n_times, 2, 2 * n_tapers - 2)`
with the scipy quantile function abstracted as `ppf level df1 df2`. -/
def mtThreshold (ppf : ℚ → ℕ → ℕ → ℚ) (p : ℚ) (nTimes nTapers : ℕ) : ℚ :=
  ppf (bonferroniLevel p nTimes) 2 (2 * nTapers - 2)

/-- Flags `np.where(f_stat > threshold)` on one channel: the flagged bin indices. -/
def exceedIndices (fStat : List ℚ) (threshold : ℚ) : List ℕ :=
  (List.range fStat.length).filter (fun i => decide (threshold < fStat.getD i 0))

/-- Modelled from the spec: the frequency axis delivered by the external
multitaper spectral transform (`_mt_spectra`, a repository file outside
`src/`).  The spec's step 4 reconstructs each sinusoid with amplitude
`2·A(f)` — the doubling that compensates a one-sided spectrum — and all
frequencies the spec mentions lie in `[0, Fs/2]`, so the axis holds one bin
per nonnegative frequency: `n/2 + 1` bins for `n` samples. -/
def nBinsSpec (nTimes : ℕ) : ℕ := nTimes / 2 + 1

/-- A stand-in for the external quantile oracle that is strictly increasing
in the significance level, as every continuous quantile function is. -/
def ppfLin (q : ℚ) (df1 df2 : ℕ) : ℚ := q + 0 * df1 + 0 * df2

/-- Guarded F-statistic of one bin (lines 1090-1095): a zero denominator is
replaced by `np.inf` before dividing, and IEEE division of the finite
numerator by infinity yields exactly `0`. -/
def fStatGuarded (num den : ℚ) : ℚ := if den = 0 then 0 else num / den

/-- Vector `f_stat = num / den` across all bins after the `den[den == 0] = np.inf`
guard. -/
def fStatList (nums dens : List ℚ) : List ℚ := List.zipWith fStatGuarded nums dens

/-- The auto-detected removal set: `np.where(f_stat > threshold)[1]`
(line 1100). -/
def autoRemoveIndices (nums dens : List ℚ) (threshold : ℚ) : List ℕ :=
  exceedIndices (fStatList nums dens) threshold

/-! ### Zero-phase kernel-spectrum rescaling (`_overlap_add_filter`, lines 109-116) -/

/-- A complex spectrum bin with exact coordinates. -/
structure CQ where
  re : ℚ
  im : ℚ
  deriving DecidableEq

/-- Squared magnitude of a bin. -/
def CQ.absSq (z : CQ) : ℚ := z.re * z.re + z.im * z.im

/-- Lines 114-116: every bin with `np.abs(h_fft) > 1e-6` is divided by
`np.sqrt(np.abs(h_fft))`; other bins are left untouched.  The irrational
magnitude `|H|` and its square root are supplied as exact witnesses
`q = |H|` (so `q² = |H|²`) and `r = √q`. -/
def zeroPhaseScaleBin (z : CQ) (q r : ℚ) : CQ :=
  if 1 / 1000000 < q then ⟨z.re / r, z.im / r⟩ else z

/-! ### Mirror-edge extension (`_1d_overlap_filter`, lines 149-150) -/

/-- Extension `np.r_[2 * x[0] - x[n_edge - 1:0:-1], x, 2 * x[-1] - x[-2:-n_edge - 1:-1]]`:
odd reflection of `n_edge - 1` samples at each end. -/
def extendMirror (x : List ℚ) (nEdge : ℕ) : List ℚ :=
  ((List.range (nEdge - 1)).map (fun i => 2 * x.getD 0 0 - x.getD (nEdge - 1 - i) 0))
    ++ x ++
    ((List.range (nEdge - 1)).map (fun j =>
      2 * x.getD (x.length - 1) 0 - x.getD (x.length - 2 - j) 0))

/-! ### Per-channel row updates (`_overlap_add_filter` 128-140, `_filter`
301-311, `_mt_spectrum_proc` 998-1016) -/

/-- The serial loop of `_mt_spectrum_proc`:
`for ii, x_ in enumerate(x): if ii in picks: x[ii], f = remove(x_, ..., s)`
where the threaded state `s` models the shared mutable `notch_widths`
array.  Rows not in `picks` are merely skipped. -/
def mtProcRowsAux {S : Type} (step : S → List ℚ → List ℚ × S) (picks : List ℕ) :
    List (List ℚ) → ℕ → S → List (List ℚ) × S
  | [], _, s => ([], s)
  | row :: rest, i, s =>
    if i ∈ picks then
      let rs := step s row
      let tail := mtProcRowsAux step picks rest (i + 1) rs.2
      (rs.1 :: tail.1, tail.2)
    else
      let tail := mtProcRowsAux step picks rest (i + 1) s
      (row :: tail.1, tail.2)

def mtProcRows {S : Type} (step : S → List ℚ → List ℚ × S) (picks : List ℕ)
    (x : List (List ℚ)) (s0 : S) : List (List ℚ) × S :=
  mtProcRowsAux step picks x 0 s0

/-- The parallel gather `x[picks, :] = data_new` (lines 139-140, 1016):
write the returned rows back at the picked indices only. -/
def scatterRows (x : List (List ℚ)) (picks : List ℕ) (rows : List (List ℚ)) :
    List (List ℚ) :=
  (List.zip picks rows).foldl (fun acc pr => acc.set pr.1 pr.2) x

/-! ### Zero-length handling (`resample` lines 1170-1199, `_filter` lines 274-311) -/

/-- The warning text of `resample`'s zero-length branch. -/
def zeroLenMsg : String := "x has zero length along axis, returning a copy of x"

/-- Function `resample` along the operating axis (one channel modelled): when the
axis is nonempty, pad `npad` copies of the first sample on both ends, call
scipy's resampler `rs` (a black box), and trim; when the axis is empty,
warn and return a copy of the input.  The second component lists the
warnings emitted. -/
def resampleModel (rs : List ℚ → List ℚ) (x : List ℚ) (npad : ℕ) :
    List ℚ × List String :=
  if 0 < x.length then
    (rs (List.replicate npad (x.getD 0 0) ++ x ++ List.replicate npad (x.getD 0 0)),
      [])
  else (x, [zeroLenMsg])

/-- The warning text of `_filter`'s direct-FFT attenuation check (lines
290-293). -/
def attMsg : String := "Attenuation at stop frequency is too low"

/-- The direct-FFT branch of `_filter` (lines 274-311) at the level of its
observable effects: the per-row spectral multiply (`rowMul`, abstracting
`_1d_fftmult_ext` together with the Nyquist-parity extension and the kernel
spectrum built by the external `firwin2`/`fft`), and the attenuation warning —
the only warning this branch can emit (`attDb` abstracts the value
`_filter_attenuation` computes via scipy's `freqz`).  There is no
zero-length guard anywhere in this path. -/
def filterDirectModel (x : List (List ℚ)) (picks : List ℕ)
    (rowMul : List ℚ → List ℚ) (attDb : ℚ) : List (List ℚ) × List String :=
  (applyPicksSeq x picks rowMul, if attDb < 20 then [attMsg] else [])

/-! ### Helper lemmas -/

theorem getD_set_ne {α : Type} (l : List α) (p i : ℕ) (v d : α) (h : p ≠ i) :
    (l.set p v).getD i d = l.getD i d := by
  rw [List.getD_eq_getD_get?, List.getD_eq_getD_get?]
  simp [List.get?_eq_getElem?, List.getElem?_set_ne h]

theorem argminFirst_ne_none {α : Type} [LinearOrder α] (f : ℕ → α) (a : ℕ)
    (as : List ℕ) : argminFirst f (a :: as) ≠ none := by
  simp only [argminFirst]
  cases argminFirst f as with
  | none => simp
  | some b =>
    dsimp only
    split <;> simp

theorem argminFirst_mem_min {α : Type} [LinearOrder α] (f : ℕ → α) :
    ∀ (l : List ℕ) (m : ℕ), argminFirst f l = some m → m ∈ l ∧ ∀ j ∈ l, f m ≤ f j
  | [], m, h => by cases h
  | a :: as, m, h => by
    simp only [argminFirst] at h
    cases hrec : argminFirst f as with
    | none =>
      rw [hrec] at h
      dsimp only at h
      have has : as = [] := by
        cases as with
        | nil => rfl
        | cons b bs => exact absurd hrec (argminFirst_ne_none f b bs)
      subst has
      cases h
      exact ⟨List.mem_singleton_self a, by intro j hj; rw [List.mem_singleton.mp hj]⟩
    | some b =>
      rw [hrec] at h
      dsimp only at h
      obtain ⟨hbmem, hbmin⟩ := argminFirst_mem_min f as b hrec
      by_cases hab : f a ≤ f b
      · rw [if_pos hab] at h
        cases h
        refine ⟨List.mem_cons_self a as, ?_⟩
        intro j hj
        rcases List.mem_cons.mp hj with hj | hj
        · rw [hj]
        · exact le_trans hab (hbmin j hj)
      · rw [if_neg hab] at h
        cases h
        refine ⟨List.mem_cons_of_mem a hbmem, ?_⟩
        intro j hj
        rcases List.mem_cons.mp hj with hj | hj
        · rw [hj]; exact le_of_lt (lt_of_not_le hab)
        · exact hbmin j hj

theorem mem_candidateExps (nH nTot k : ℕ) :
    k ∈ candidateExps nH nTot ↔ clog2 nH ≤ k ∧ k < flog2 nTot := by
  simp only [candidateExps, List.mem_range']
  constructor
  · rintro ⟨i, hi, rfl⟩; omega
  · intro h; exact ⟨k - clog2 nH, by omega, by omega⟩

theorem mem_exceedIndices (fStat : List ℚ) (t : ℚ) (i : ℕ) :
    i ∈ exceedIndices fStat t ↔ i < fStat.length ∧ t < fStat.getD i 0 := by
  simp [exceedIndices, List.mem_filter, List.mem_range]

/-! ### C1 -/

/-- C1 counterexample: for a design with gain 1 at Nyquist and natural
length 4, `_filter` extends the length to 5, which is odd — the claim says
gain 1 at Nyquist forces an even kernel length. -/
theorem C1_counterexample :
    nyqAdjustedLength 1 4 = 5 ∧ nyqAdjustedLength 1 4 % 2 = 1 := by decide

/-- C1 amended: both branches of `_filter` enforce the reverse parities of
the claim — gain 1 at Nyquist makes the used length N odd, gain 0 makes it
even (matching `firwin2`, which requires an odd tap count for nonzero
Nyquist gain), adjusting the natural/requested length by at most one
sample. -/
theorem C1_amended (g : ℚ) (n : ℕ) (hg : g = 0 ∨ g = 1) :
    (g = 1 → nyqAdjustedLength g n % 2 = 1) ∧
    (g = 0 → nyqAdjustedLength g n % 2 = 0) ∧
    (nyqAdjustedLength g n = n ∨ nyqAdjustedLength g n = n + 1) := by
  have h01 : (0 : ℚ) ≠ 1 := by norm_num
  rcases hg with h | h <;> subst h
  · by_cases hn : n % 2 = 1 <;>
      simp [nyqAdjustedLength, extend_x, hn, h01] <;> omega
  · by_cases hn : n % 2 = 1 <;>
      simp [nyqAdjustedLength, extend_x, hn, h01.symm] <;> omega

theorem C1_amended_witness :
    (((1 : ℚ) = 1 → nyqAdjustedLength 1 4 % 2 = 1) ∧
      ((1 : ℚ) = 0 → nyqAdjustedLength 1 4 % 2 = 0) ∧
      (nyqAdjustedLength 1 4 = 4 ∨ nyqAdjustedLength 1 4 = 4 + 1)) :=
  C1_amended 1 4 (Or.inr rfl)

/-! ### C2 -/

/-- C2: processing a channel is not a pure function of that channel's data
and the call parameters.  With bins `[0,1,2,3]`, one line frequency `2` and
notch width `3`, a channel processed first (or alone) gets the notch bins
`{1,2,3}`; processing any single channel first leaves the shared
`notch_widths` array halved in place (line 1106), so the very same channel
processed second gets only bin `{2}` — its removed-frequency output
changes from `[1,2,3]` to `[2]`. -/
theorem C2_channel_purity_fails :
    mtRmFreqs [0, 1, 2, 3] [2] [3] = [1, 2, 3] ∧
    (mtSelectExplicit [0, 1, 2, 3] [2] [3]).2 = [3 / 2] ∧
    mtRmFreqs [0, 1, 2, 3] [2] ((mtSelectExplicit [0, 1, 2, 3] [2] [3]).2) = [2] ∧
    mtRmFreqs [0, 1, 2, 3] [2] ((mtSelectExplicit [0, 1, 2, 3] [2] [3]).2) ≠
      mtRmFreqs [0, 1, 2, 3] [2] [3] := by
  have h1 : mtSelectExplicit [0, 1, 2, 3] [2] [3] = ([1, 2, 3], [3 / 2]) := by
    norm_num [mtSelectExplicit, npUnique, insertAsc, argminAbs, argminFirst,
      notchBandIndices, List.range_succ, List.range_zero]
  have h2 : mtSelectExplicit [0, 1, 2, 3] [2] [3 / 2] = ([2], [3 / 4]) := by
    norm_num [mtSelectExplicit, npUnique, insertAsc, argminAbs, argminFirst,
      notchBandIndices, List.range_succ, List.range_zero]
  refine ⟨by norm_num [mtRmFreqs, h1], by norm_num [h1], ?_, ?_⟩
  · norm_num [mtRmFreqs, h1, h2]
  · norm_num [mtRmFreqs, h1, h2]

/-! ### C3 -/

/-- C3: whenever the requested FFT length is shorter than the kernel, the
call fails with an exception before any channel is processed: the explicit
guard fires for `n_fft ≤ 0`, and for `0 < n_fft < n_h` the negative-length
`np.zeros(n_fft - n_h)` in the kernel-padding step raises — both happen
before the per-channel loop, so no in-place mutation has occurred. -/
theorem C3_short_fft_fatal (x : List (List ℚ)) (hker : List ℚ) (nFft : ℤ)
    (picks : List ℕ) (rowFilter : List ℚ → List ℚ → List ℚ)
    (hlt : nFft < (hker.length : ℤ)) :
    ∃ msg, overlapAddFilterModel x hker nFft picks rowFilter = Except.error msg := by
  by_cases h0 : nFft ≤ 0
  · refine ⟨"n_fft is too short, has to be at least len(h)", ?_⟩
    simp [overlapAddFilterModel, overlapAddPrep, h0]
  · have hneg : nFft - (hker.length : ℤ) < 0 := by omega
    refine ⟨"negative dimensions are not allowed", ?_⟩
    simp [overlapAddFilterModel, overlapAddPrep, npZeros, h0, hneg, Except.map]

theorem C3_witness :
    ∃ msg, overlapAddFilterModel [[1, 2]] [1, 0, 0] 2 [0] (fun _ r => r) =
      Except.error msg :=
  C3_short_fft_fatal [[1, 2]] [1, 0, 0] 2 [0] (fun _ r => r) (by decide)

/-! ### C4 -/

/-- C4 counterexample: with `p = 1/20` and a channel of `n_times = 8`
samples the one-sided spectrum has `nBinsSpec 8 = 5` bins, so the claim's
Bonferroni level is `1 - (1/20)/5 = 99/100`, while the code uses
`1 - (1/20)/8 = 159/160` (line 1097 divides by `n_times`).  For any
strictly increasing quantile oracle the two thresholds disagree: a bin with
F-statistic `993/1000` is flagged under the claim's threshold but not under
the code's. -/
theorem C4_counterexample :
    bonferroniLevel (1 / 20) 8 ≠ 1 - (1 / 20 : ℚ) / (nBinsSpec 8 : ℚ) ∧
    exceedIndices [993 / 1000] (mtThreshold ppfLin (1 / 20) 8 4) = [] ∧
    exceedIndices [993 / 1000] (ppfLin (1 - (1 / 20 : ℚ) / (nBinsSpec 8 : ℚ)) 2 6) =
      [0] := by
  refine ⟨by norm_num [bonferroniLevel, nBinsSpec], ?_, ?_⟩
  · norm_num [exceedIndices, mtThreshold, bonferroniLevel, ppfLin,
      List.range_succ, List.range_zero]
  · norm_num [exceedIndices, nBinsSpec, ppfLin, List.range_succ, List.range_zero]

/-- C4 amended: in auto-detection mode a bin is flagged iff its F-statistic
exceeds the `(1 - p/n_times)` quantile of the `F(2, 2·tapers−2)`
distribution, where `n_times` is the number of TIME samples of the channel
(about twice the number of frequency bins actually tested). -/
theorem C4_amended (ppf : ℚ → ℕ → ℕ → ℚ) (p : ℚ) (nTimes nTapers : ℕ)
    (fStat : List ℚ) (i : ℕ) :
    i ∈ exceedIndices fStat (mtThreshold ppf p nTimes nTapers) ↔
      i < fStat.length ∧ ppf (1 - p / nTimes) 2 (2 * nTapers - 2) < fStat.getD i 0 := by
  simpa [mtThreshold, bonferroniLevel] using
    mem_exceedIndices fStat (mtThreshold ppf p nTimes nTapers) i

theorem C4_amended_witness :
    (0 ∈ exceedIndices [993 / 1000] (mtThreshold ppfLin (1 / 20) 8 4) ↔
      0 < ([993 / 1000] : List ℚ).length ∧
        ppfLin (1 - (1 / 20) / ((8 : ℕ) : ℚ)) 2 (2 * 4 - 2) <
          ([993 / 1000] : List ℚ).getD 0 0) :=
  C4_amended ppfLin (1 / 20) 8 4 [993 / 1000] 0

/-! ### C5 -/

/-- C5 counterexample: with a 10-tap kernel, a 6-sample channel and
zero-phase on, the code searches only the half-open exponent range and
returns 16, while the claim's inclusive range contains 32, which has the
smaller cost; with a 6-tap kernel and a 2-sample channel the code's
fallback condition `n_x ≤ n_h` triggers (n_x = 4), returning 16, while the
claim's condition `n_tot ≤ n_h` does not (n_tot = 8 > 6) and its search
returns 8. -/
theorem C5_counterexample :
    planNfft 10 6 true = some 16 ∧ planNfftSpec 10 6 true = some 32 ∧
    planNfft 6 2 true = some 16 ∧ planNfftSpec 6 2 true = some 8 := by decide

/-- C5 amended: when the planner returns a size, then either the extended
length satisfies `n_x ≤ n_h` and the result is the single block
`2^ceil(log2(n_x + n_h - 1))`, or `n_x > n_h` and the result is a power of
two whose exponent lies in the HALF-OPEN range
`[ceil(log2 n_h), floor(log2 n_tot))` and whose cost is minimal over that
half-open range (the top exponent is excluded, and when the half-open range
is empty the planner crashes instead of returning a size). -/
theorem C5_amended (nH xLen : ℕ) (zeroPhase : Bool) (N : ℕ)
    (hres : planNfft nH xLen zeroPhase = some N) :
    (nExt nH xLen ≤ nH ∧ N = 2 ^ clog2 (nExt nH xLen + nH - 1)) ∨
    (nH < nExt nH xLen ∧ ∃ k, N = 2 ^ k ∧
      clog2 nH ≤ k ∧ k < flog2 (nTotOf zeroPhase (nExt nH xLen)) ∧
      ∀ j, clog2 nH ≤ j → j < flog2 (nTotOf zeroPhase (nExt nH xLen)) →
        olaCost (nTotOf zeroPhase (nExt nH xLen)) nH N ≤
          olaCost (nTotOf zeroPhase (nExt nH xLen)) nH (2 ^ j)) := by
  unfold planNfft at hres
  by_cases hcmp : nH < nExt nH xLen
  · rw [if_pos hcmp] at hres
    right
    refine ⟨hcmp, ?_⟩
    rcases hmap : argminFirst
        (fun k => olaCost (nTotOf zeroPhase (nExt nH xLen)) nH (2 ^ k))
        (candidateExps nH (nTotOf zeroPhase (nExt nH xLen))) with _ | k
    · rw [hmap] at hres; cases hres
    · rw [hmap] at hres
      simp only [Option.map_some'] at hres
      cases hres
      obtain ⟨hmem, hmin⟩ := argminFirst_mem_min _ _ _ hmap
      rw [mem_candidateExps] at hmem
      refine ⟨k, rfl, hmem.1, hmem.2, ?_⟩
      intro j hj1 hj2
      exact hmin j ((mem_candidateExps _ _ _).mpr ⟨hj1, hj2⟩)
  · rw [if_neg hcmp] at hres
    left
    cases hres
    exact ⟨by omega, rfl⟩

theorem C5_amended_witness :
    (nExt 10 6 ≤ 10 ∧ 16 = 2 ^ clog2 (nExt 10 6 + 10 - 1)) ∨
    (10 < nExt 10 6 ∧ ∃ k, (16 : ℕ) = 2 ^ k ∧
      clog2 10 ≤ k ∧ k < flog2 (nTotOf true (nExt 10 6)) ∧
      ∀ j, clog2 10 ≤ j → j < flog2 (nTotOf true (nExt 10 6)) →
        olaCost (nTotOf true (nExt 10 6)) 10 16 ≤
          olaCost (nTotOf true (nExt 10 6)) 10 (2 ^ j)) :=
  C5_amended 10 6 true 16 (by decide)

/-! ### C6 -/

/-- C6 counterexample: on a zero-length channel the direct-FFT branch of
`_filter` emits no warning at all (its only warning site is the attenuation
check), while `resample` emits the zero-length DataWarning and copies — so
it is not the case that EVERY operation warns and returns a copy on
zero-length input. -/
theorem C6_counterexample :
    (filterDirectModel [[]] [0] (fun r => r) 30).2 = [] ∧
    (resampleModel (fun r => r) [] 100).2 = [zeroLenMsg] := by
  constructor
  · norm_num [filterDirectModel]
  · norm_num [resampleModel]

/-- C6 amended: `resample` warns and returns an unmodified copy on
zero-length input along the operating axis, but the FIR filtering path has
no zero-length guard: whatever the channels, the pick list, or the
attenuation result, it never emits the zero-length DataWarning. -/
theorem C6_amended (rs : List ℚ → List ℚ) (x : List ℚ) (npad : ℕ)
    (hx : x.length = 0) :
    resampleModel rs x npad = (x, [zeroLenMsg]) ∧
    ∀ (y : List (List ℚ)) (picks : List ℕ) (rowMul : List ℚ → List ℚ) (attDb : ℚ),
      zeroLenMsg ∉ (filterDirectModel y picks rowMul attDb).2 := by
  constructor
  · simp [resampleModel, hx]
  · intro y picks rowMul attDb
    by_cases h : attDb < 20
    · simp only [filterDirectModel, if_pos h]
      decide
    · simp only [filterDirectModel, if_neg h]
      decide

theorem C6_amended_witness :
    (resampleModel (fun r => r) ([] : List ℚ) 100 = ([], [zeroLenMsg]) ∧
      ∀ (y : List (List ℚ)) (picks : List ℕ) (rowMul : List ℚ → List ℚ) (attDb : ℚ),
        zeroLenMsg ∉ (filterDirectModel y picks rowMul attDb).2) :=
  C6_amended (fun r => r) [] 100 rfl

/-! ### C7 -/

/-- C7: in auto-detection mode a bin whose F-statistic denominator is zero
is harmless: the guard replaces the denominator by infinity, so the
statistic evaluates to the finite value 0 (no division by zero), the bin
never exceeds the (nonnegative) threshold, and hence it is absent from the
removal index set — no sinusoid is subtracted at it. -/
theorem C7_zero_denominator_excluded (nums dens : List ℚ) (threshold : ℚ)
    (i : ℕ) (hlen : nums.length = dens.length) (hi : i < dens.length)
    (hden : dens.getD i 0 = 0) (hth : 0 ≤ threshold) :
    (fStatList nums dens).getD i 0 = 0 ∧
    i ∉ autoRemoveIndices nums dens threshold := by
  have hi2 : i < (fStatList nums dens).length := by
    simp only [fStatList, List.length_zipWith, hlen, min_self]
    exact hi
  have hval : (fStatList nums dens).getD i 0 = 0 := by
    rw [List.getD_eq_getElem _ _ hi2]
    simp only [fStatList, List.getElem_zipWith]
    have hde : dens[i] = 0 := by
      rw [← List.getD_eq_getElem dens 0 hi]
      exact hden
    simp [fStatGuarded, hde]
  refine ⟨hval, ?_⟩
  intro hmem
  unfold autoRemoveIndices at hmem
  rcases (mem_exceedIndices _ _ _).mp hmem with ⟨_, hlt⟩
  rw [hval] at hlt
  exact absurd hlt (not_lt.mpr hth)

theorem C7_witness :
    (fStatList [3] [0]).getD 0 0 = 0 ∧ 0 ∉ autoRemoveIndices [3] [0] 1 :=
  C7_zero_denominator_excluded [3] [0] 1 0 rfl (by norm_num) rfl (by norm_num)

/-! ### C8 -/

/-- C8: in the zero-phase rescaling of the kernel spectrum, every bin with
magnitude above `1e-6` is replaced by `H / sqrt(abs H)`, whose squared
magnitude is exactly the designed magnitude `abs H` (so two applications
reproduce the designed response, not its square), and every bin with
magnitude at most `1e-6` is left unchanged.  The irrational values are
supplied as exact witnesses: `q = abs H` (so `q² = (abs H)²`) and
`r = sqrt q`. -/
theorem C8_zero_phase_rescale (z : CQ) (q r : ℚ)
    (hq : q * q = z.absSq) (hr : r * r = q) :
    (1 / 1000000 < q → (zeroPhaseScaleBin z q r).absSq = q) ∧
    (¬ 1 / 1000000 < q → zeroPhaseScaleBin z q r = z) := by
  constructor
  · intro hgt
    have hq0 : 0 < q := lt_trans (by norm_num) hgt
    have hr0 : r ≠ 0 := by
      intro h0
      rw [h0] at hr
      simp at hr
      exact absurd hr.symm (ne_of_gt hq0)
    rw [zeroPhaseScaleBin, if_pos hgt]
    simp only [CQ.absSq]
    field_simp
    rw [hr, hq]
    rfl
  · intro hle
    rw [zeroPhaseScaleBin, if_neg hle]

theorem C8_witness :
    ((1 : ℚ) / 1000000 < 16 → (zeroPhaseScaleBin ⟨16, 0⟩ 16 4).absSq = 16) ∧
    (¬ (1 : ℚ) / 1000000 < 16 → zeroPhaseScaleBin ⟨16, 0⟩ 16 4 = ⟨16, 0⟩) :=
  C8_zero_phase_rescale ⟨16, 0⟩ 16 4 (by norm_num [CQ.absSq]) (by norm_num)

/-! ### C9 -/

theorem getD_map_range (e : ℕ) (f : ℕ → ℚ) (i : ℕ) (hi : i < e) :
    ((List.range e).map f).getD i 0 = f i := by
  rw [List.getD_eq_getElem _ _ (by simpa using hi)]
  simp

theorem extendMirror_length (x : List ℚ) (nEdge : ℕ) :
    (extendMirror x nEdge).length = (nEdge - 1) + x.length + (nEdge - 1) := by
  simp [extendMirror]
  omega

/-- On a ramp `x[k] = a + b·k`, every sample of the extended signal lies on
the same ramp shifted so that the original signal starts at position
`nEdge - 1`. -/
theorem extendMirror_ramp_val (x : List ℚ) (nEdge : ℕ) (a b : ℚ)
    (h1 : 1 ≤ nEdge) (h2 : nEdge ≤ x.length)
    (hramp : ∀ k, k < x.length → x.getD k 0 = a + b * k)
    (t : ℕ) (ht : t < (nEdge - 1) + x.length + (nEdge - 1)) :
    (extendMirror x nEdge).getD t 0 = a + b * ((t : ℚ) - ((nEdge - 1 : ℕ) : ℚ)) := by
  have hn : 1 ≤ x.length := le_trans h1 h2
  have hlenA : ((List.range (nEdge - 1)).map
      (fun i => 2 * x.getD 0 0 - x.getD (nEdge - 1 - i) 0)).length = nEdge - 1 := by
    simp
  have hx0 : x.getD 0 0 = a := by
    have := hramp 0 (by omega)
    simpa using this
  rcases lt_or_le t (nEdge - 1) with hcase | hcase
  · -- head region
    rw [extendMirror, List.append_assoc,
      List.getD_append _ _ _ _ (by simpa [hlenA] using hcase),
      getD_map_range _ _ _ hcase]
    have hb : nEdge - 1 - t < x.length := by omega
    rw [hx0, hramp (nEdge - 1 - t) hb]
    have hcast : ((nEdge - 1 - t : ℕ) : ℚ) = ((nEdge - 1 : ℕ) : ℚ) - (t : ℚ) := by
      push_cast [Nat.cast_sub (le_of_lt hcase)]
      ring
    rw [hcast]
    ring
  · rcases lt_or_le t ((nEdge - 1) + x.length) with hcase2 | hcase2
    · -- middle region: the original samples
      rw [extendMirror, List.append_assoc,
        List.getD_append_right _ _ _ _ (by simpa [hlenA] using hcase),
        hlenA, List.getD_append _ _ _ _ (by omega)]
      rw [hramp (t - (nEdge - 1)) (by omega)]
      have hcast : ((t - (nEdge - 1) : ℕ) : ℚ) = (t : ℚ) - ((nEdge - 1 : ℕ) : ℚ) := by
        push_cast [Nat.cast_sub hcase]
        ring
      rw [hcast]
    · -- tail region
      have he1 : 1 ≤ nEdge - 1 := by omega
      have hn2 : 2 ≤ x.length := by omega
      rw [extendMirror, List.append_assoc,
        List.getD_append_right _ _ _ _ (by simpa [hlenA] using hcase), hlenA,
        List.getD_append_right _ _ _ _ (by omega)]
      set j := t - (nEdge - 1) - x.length with hj
      have hjlt : j < nEdge - 1 := by omega
      rw [getD_map_range _ _ _ hjlt]
      have hlast : x.getD (x.length - 1) 0 = a + b * ((x.length : ℚ) - 1) := by
        rw [hramp (x.length - 1) (by omega)]
        push_cast [Nat.cast_sub hn]
        ring
      have hjle : j ≤ x.length - 2 := by omega
      have hmid : x.getD (x.length - 2 - j) 0 =
          a + b * ((x.length : ℚ) - 2 - (j : ℚ)) := by
        rw [hramp (x.length - 2 - j) (by omega)]
        push_cast [Nat.cast_sub hjle, Nat.cast_sub hn2]
        ring
      rw [hlast, hmid]
      have hts : (t : ℚ) = ((nEdge - 1 : ℕ) : ℚ) + (x.length : ℚ) + (j : ℚ) := by
        have : t = (nEdge - 1) + x.length + j := by omega
        rw [this]
        push_cast
        ring
      rw [hts]
      ring

/-- C9: each channel is extended by `nEdge - 1` samples at each end by odd
reflection, `extended[i] = 2·x[0] - x[nEdge-1-i]` at the head (and
symmetrically at the tail); consequently, on a linear ramp the extended
signal has the same first difference `b` across every adjacent pair,
including both splice points. -/
theorem C9_mirror_extension (x : List ℚ) (nEdge : ℕ) (a b : ℚ)
    (h1 : 1 ≤ nEdge) (h2 : nEdge ≤ x.length)
    (hramp : ∀ k, k < x.length → x.getD k 0 = a + b * k) :
    (∀ i, i < nEdge - 1 →
      (extendMirror x nEdge).getD i 0 = 2 * x.getD 0 0 - x.getD (nEdge - 1 - i) 0) ∧
    (∀ t, t + 1 < (extendMirror x nEdge).length →
      (extendMirror x nEdge).getD (t + 1) 0 - (extendMirror x nEdge).getD t 0 = b) := by
  constructor
  · intro i hi
    rw [extendMirror, List.append_assoc,
      List.getD_append _ _ _ _ (by simpa using hi), getD_map_range _ _ _ hi]
  · intro t ht
    rw [extendMirror_length] at ht
    rw [extendMirror_ramp_val x nEdge a b h1 h2 hramp (t + 1) ht,
      extendMirror_ramp_val x nEdge a b h1 h2 hramp t (by omega)]
    push_cast
    ring

theorem C9_witness :
    ((∀ i, i < 3 - 1 →
        (extendMirror [0, 1, 2, 3] 3).getD i 0 =
          2 * ([0, 1, 2, 3] : List ℚ).getD 0 0 - ([0, 1, 2, 3] : List ℚ).getD (3 - 1 - i) 0) ∧
      (∀ t, t + 1 < (extendMirror [0, 1, 2, 3] 3).length →
        (extendMirror [0, 1, 2, 3] 3).getD (t + 1) 0 -
          (extendMirror [0, 1, 2, 3] 3).getD t 0 = 1)) :=
  C9_mirror_extension [0, 1, 2, 3] 3 0 1 (by norm_num) (by norm_num)
    (by
      intro k hk
      norm_num at hk
      interval_cases k <;> norm_num)

/-! ### C10 -/

theorem applyPicksSeq_getD (picks : List ℕ) (x : List (List ℚ))
    (f : List ℚ → List ℚ) (i : ℕ) (hi : i ∉ picks) :
    (applyPicksSeq x picks f).getD i [] = x.getD i [] := by
  induction picks generalizing x with
  | nil => rfl
  | cons p ps ih =>
    have hpi : p ≠ i := fun h => hi (h ▸ List.mem_cons_self p ps)
    have hips : i ∉ ps := fun h => hi (List.mem_cons_of_mem p h)
    show (applyPicksSeq (x.set p (f (x.getD p []))) ps f).getD i [] = x.getD i []
    rw [ih _ hips, getD_set_ne _ _ _ _ _ hpi]

theorem mtProcRowsAux_getD {S : Type} (step : S → List ℚ → List ℚ × S)
    (picks : List ℕ) :
    ∀ (rows : List (List ℚ)) (i0 j : ℕ) (s : S), i0 + j ∉ picks →
      (mtProcRowsAux step picks rows i0 s).1.getD j [] = rows.getD j []
  | [], _, _, _, _ => rfl
  | row :: rest, i0, j, s, h => by
    by_cases hp : i0 ∈ picks
    · cases j with
      | zero => exact absurd hp (by simpa using h)
      | succ j =>
        have h2 : i0 + 1 + j ∉ picks := by
          simpa [show i0 + 1 + j = i0 + (j + 1) from by omega] using h
        simp only [mtProcRowsAux, if_pos hp]
        rw [List.getD_cons_succ, List.getD_cons_succ]
        exact mtProcRowsAux_getD step picks rest (i0 + 1) j _ h2
    · cases j with
      | zero =>
        simp only [mtProcRowsAux, if_neg hp]
        rw [List.getD_cons_zero, List.getD_cons_zero]
      | succ j =>
        have h2 : i0 + 1 + j ∉ picks := by
          simpa [show i0 + 1 + j = i0 + (j + 1) from by omega] using h
        simp only [mtProcRowsAux, if_neg hp]
        rw [List.getD_cons_succ, List.getD_cons_succ]
        exact mtProcRowsAux_getD step picks rest (i0 + 1) j s h2

theorem scatterRows_getD (picks : List ℕ) (rows x : List (List ℚ)) (i : ℕ)
    (hi : i ∉ picks) :
    (scatterRows x picks rows).getD i [] = x.getD i [] := by
  induction picks generalizing rows x with
  | nil => rfl
  | cons p ps ih =>
    cases rows with
    | nil => rfl
    | cons r rs =>
      have hpi : p ≠ i := fun h => hi (h ▸ List.mem_cons_self p ps)
      have hips : i ∉ ps := fun h => hi (List.mem_cons_of_mem p h)
      show (scatterRows (x.set p r) ps rs).getD i [] = x.getD i []
      rw [ih rs _ hips, getD_set_ne _ _ _ _ _ hpi]

/-- C10: in all three engines the rows whose index is not in `picks` come
out of the per-channel update exactly equal to the corresponding input
rows: the serial loop `for p in picks: x[p] = f(x[p])` of the FIR engines,
the enumerate-and-skip loop of `_mt_spectrum_proc` (even though its step
threads the shared mutable widths state), and the parallel gather
`x[picks, :] = data_new`. -/
theorem C10_unpicked_rows_unchanged :
    (∀ (x : List (List ℚ)) (picks : List ℕ) (f : List ℚ → List ℚ) (i : ℕ),
      i ∉ picks → (applyPicksSeq x picks f).getD i [] = x.getD i []) ∧
    (∀ (S : Type) (step : S → List ℚ → List ℚ × S) (picks : List ℕ)
        (x : List (List ℚ)) (s0 : S) (i : ℕ),
      i ∉ picks → (mtProcRows step picks x s0).1.getD i [] = x.getD i []) ∧
    (∀ (x rows : List (List ℚ)) (picks : List ℕ) (i : ℕ),
      i ∉ picks → (scatterRows x picks rows).getD i [] = x.getD i []) :=
  ⟨fun x picks f i hi => applyPicksSeq_getD picks x f i hi,
    fun _ step picks x s0 i hi =>
      mtProcRowsAux_getD step picks x 0 i s0 (by simpa using hi),
    fun x rows picks i hi => scatterRows_getD picks rows x i hi⟩

theorem C10_witness :
    (applyPicksSeq [[1], [2]] [0] (fun r => 0 :: r)).getD 1 [] = [2] ∧
    (mtProcRows (fun (s : ℚ) r => (s :: r, s + 1)) [0] [[1], [2]] 0).1.getD 1 [] = [2] ∧
    (scatterRows [[1], [2]] [0] [[9]]).getD 1 [] = [2] :=
  ⟨(C10_unpicked_rows_unchanged.1 [[1], [2]] [0] (fun r => 0 :: r) 1
      (by decide)).trans rfl,
    (C10_unpicked_rows_unchanged.2.1 ℚ (fun s r => (s :: r, s + 1)) [0] [[1], [2]] 0 1
      (by decide)).trans rfl,
    (C10_unpicked_rows_unchanged.2.2 [[1], [2]] [[9]] [0] 1 (by decide)).trans rfl⟩

end MneFilter
